import Mathlib

/-!
Verification of the accessible-email-client core against its specification.

Shallow embedding of the Python sources:
  * `src/database/db_manager.py`   — the SQLite cache (`DBManager.upsert_email`,
    `get_email_flags`, `update_email_flags`, `get_emails`);
  * `src/core/email_repository.py` — `EmailRepository.move_emails`, `add_flags`,
    `remove_flags`, `fetch_threads`, `_save_email_node`, `_fetch_threads_from_db`;
  * `src/core/imap_client.py`      — `IMAPClient.fetch_threads` (post-build pipeline),
    `_normalize_subject`, `_merge_by_subject`, `_fetch_threads_fallback` (tier 2/3);
  * `src/core/email_poller.py`     — `EmailPoller._sync_initial_uids`, `_poll_accounts`;
  * `src/core/rule_manager.py`     — `RuleManager.apply_rules`.

Modelling conventions: Python strings are `List Char`; dates (Python `datetime`)
are abstracted as integer timestamps, with `Option` for `None`; SQL `NULL`-able
columns are `Option`; the JSON-serialized `references_list` column is modelled by
its decoded value (`json.dumps`/`json.loads` round-trip is the identity on the
lists the program stores); remote IMAP calls are modelled by their outcome
(`raised`, or returned boolean / returned list).
-/

/-- Python strings, modelled as lists of characters. -/
abbrev Str := List Char

/-- Characters stripped by Python's `str.strip()` (ASCII whitespace). -/
def isPyWs (c : Char) : Bool :=
  c = ' ' ∨ c = '\t' ∨ c = '\n' ∨ c = '\r' ∨ c = '\x0b' ∨ c = '\x0c'

/-- Python `str.strip()`: remove leading and trailing whitespace. -/
def pyStrip (s : Str) : Str :=
  ((s.dropWhile isPyWs).reverse.dropWhile isPyWs).reverse

/-- Python `str.lower()` (ASCII case folding suffices for the program's data). -/
def pyLower (s : Str) : Str := s.map Char.toLower

/-- Truthiness of an optional string, as Python evaluates it: `None` and the
empty string are falsy. -/
def optTruthy : Option Str → Bool
  | none => false
  | some s => !s.isEmpty

/-- Python `needle in haystack` prefix test helper: does `h` start with `n`? -/
def startsWithB : Str → Str → Bool
  | [], _ => true
  | _ :: _, [] => false
  | a :: as, b :: bs => a = b && startsWithB as bs

/-- Python substring containment `n in h`. -/
def isSubstr (n : Str) : Str → Bool
  | [] => n.isEmpty
  | c :: t => startsWithB n (c :: t) || isSubstr n t

/-- Declarative substring relation used to state properties of `isSubstr`. -/
def SubstrSpec (n h : Str) : Prop := ∃ pre post : Str, pre ++ n ++ post = h

/-- Python `s.split(',')` on a character list. -/
def splitCommas (s : Str) : List Str :=
  match s with
  | [] => [[]]
  | c :: rest =>
      match splitCommas rest with
      | [] => [[]]
      | piece :: pieces => if c = ',' then [] :: piece :: pieces else (c :: piece) :: pieces

/-!
## The cache store (`db_manager.py`)

The `emails` table.  `flags` is stored as `str(list)` and read back with
`eval`; we model the column by the list it denotes (`none` = SQL NULL).
`references_list` stores `json.dumps` of a list of message-ids; we model it by
the decoded list.  `date_received` is abstracted as an integer timestamp.
-/

/-- One row of the `emails` table. -/
structure EmailRow where
  accountId : Nat
  folderId : Nat
  uid : Nat
  subject : Option Str
  sender : Option Str
  dateReceived : Option Int
  flags : Option (List Str)
  messageId : Option Str
  inReplyTo : Option Str
  referencesList : Option (List Str)
  recipients : Option Str
  bodyText : Option Str
  bodyHtml : Option Str
deriving Repr, DecidableEq

/-- The `emails` table, in rowid order. -/
abbrev Db := List EmailRow

/-- The unique key `(account_id, folder_id, uid)` of a row. -/
def rowKey (r : EmailRow) : Nat × Nat × Nat := (r.accountId, r.folderId, r.uid)

/-- First row with the given key (the row SQLite's unique index makes unique). -/
def dbLookup (db : Db) (aid fid uid : Nat) : Option EmailRow :=
  db.find? (fun r => rowKey r = (aid, fid, uid))

/-- The non-key, non-body columns passed to `DBManager.upsert_email`. -/
structure UpsertArgs where
  subject : Option Str
  sender : Option Str
  date : Option Int
  flags : List Str
  messageId : Option Str
  inReplyTo : Option Str
  references : Option (List Str)
  recipients : Option Str
deriving Repr, DecidableEq

/-- The `ON CONFLICT ... DO UPDATE SET` column list shared by all three query
variants of `upsert_email`: every metadata column is overwritten, the body
columns are not mentioned and therefore keep their stored value. -/
def metaUpdate (a : UpsertArgs) (r : EmailRow) : EmailRow :=
  { r with
    subject := a.subject
    sender := a.sender
    dateReceived := a.date
    flags := some a.flags
    messageId := a.messageId
    inReplyTo := a.inReplyTo
    referencesList := a.references
    recipients := a.recipients }

/-- A freshly inserted row (the `INSERT` arm of `upsert_email`). -/
def freshRow (aid fid uid : Nat) (a : UpsertArgs) (bodyText bodyHtml : Option Str) : EmailRow :=
  { accountId := aid, folderId := fid, uid := uid
    subject := a.subject, sender := a.sender, dateReceived := a.date
    flags := some a.flags, messageId := a.messageId, inReplyTo := a.inReplyTo
    referencesList := a.references, recipients := a.recipients
    bodyText := bodyText, bodyHtml := bodyHtml }

/-- `DBManager.upsert_email`.  Three branches, exactly as in the source:
`body_text is None and body_html is None` → the body columns are neither
inserted nor updated; `elif body_text or body_html` (Python truthiness) → the
body columns are inserted and updated; otherwise (bodies supplied but falsy)
the first query runs: bodies are inserted on a fresh row but not updated on
conflict. -/
def upsertEmail (db : Db) (aid fid uid : Nat) (a : UpsertArgs)
    (bodyText bodyHtml : Option Str) : Db :=
  let key := (aid, fid, uid)
  let conflict := db.any (fun r => rowKey r = key)
  if bodyText = none ∧ bodyHtml = none then
    if conflict then db.map (fun r => if rowKey r = key then metaUpdate a r else r)
    else db ++ [freshRow aid fid uid a none none]
  else if optTruthy bodyText || optTruthy bodyHtml then
    if conflict then
      db.map (fun r => if rowKey r = key then
        { metaUpdate a r with bodyText := bodyText, bodyHtml := bodyHtml } else r)
    else db ++ [freshRow aid fid uid a bodyText bodyHtml]
  else
    if conflict then db.map (fun r => if rowKey r = key then metaUpdate a r else r)
    else db ++ [freshRow aid fid uid a bodyText bodyHtml]

/-!
## Repository mutations (`email_repository.py`)

`move_emails` / `add_flags` / `remove_flags` first call the IMAP client inside
`try/except`; `success` stays `False` when the call raises.  Only on success is
the cache touched.
-/

/-- Outcome of a remote IMAP call that returns a boolean: either the call
raised, or it returned `b`. -/
inductive RemoteResult where
  | raised : RemoteResult
  | ok (b : Bool) : RemoteResult
deriving Repr, DecidableEq

/-- The value of the local `success` variable after the `try/except` block. -/
def remoteSuccess : RemoteResult → Bool
  | .raised => false
  | .ok b => b

/-- The SQL `UPDATE emails SET folder_id = ? WHERE account_id = ? AND uid IN (...)`
issued by `move_emails` on success. -/
def sqlMoveUpdate (db : Db) (aid tgtFolderId : Nat) (uids : List Nat) : Db :=
  db.map (fun r => if r.accountId = aid ∧ r.uid ∈ uids then
    { r with folderId := tgtFolderId } else r)

/-- `EmailRepository.move_emails`: the cache is rewritten only when the remote
move reported success; `tgtFolderId` is the id `upsert_folder` resolved for the
target folder name. -/
def moveEmails (db : Db) (aid : Nat) (uids : List Nat) (tgtFolderId : Nat)
    (remote : RemoteResult) : Db :=
  if remoteSuccess remote then sqlMoveUpdate db aid tgtFolderId uids else db

/-- The flag-union loop of `add_flags`: append each new flag not already
present, preserving order. -/
def unionFlags (current new : List Str) : List Str :=
  new.foldl (fun acc f => if f ∈ acc then acc else acc ++ [f]) current

/-- The flag-difference comprehension of `remove_flags`. -/
def diffFlags (current remove : List Str) : List Str :=
  current.filter (fun f => f ∉ remove)

/-- Flags of the row at a key, decoded as `add_flags`/`remove_flags` decode
them: `eval(current) if current else []`. -/
def currentFlagsAt (db : Db) (aid fid uid : Nat) : List Str :=
  match dbLookup db aid fid uid with
  | some r => r.flags.getD []
  | none => []

/-- One iteration of the `for uid in uids` loop of `add_flags`:
read `get_email_flags`, union, `update_email_flags`. -/
def addFlagsStep (aid fid : Nat) (flags : List Str) (db : Db) (uid : Nat) : Db :=
  let newFlags := unionFlags (currentFlagsAt db aid fid uid) flags
  db.map (fun r => if rowKey r = (aid, fid, uid) then { r with flags := some newFlags } else r)

/-- One iteration of the `for uid in uids` loop of `remove_flags`. -/
def removeFlagsStep (aid fid : Nat) (flags : List Str) (db : Db) (uid : Nat) : Db :=
  let newFlags := diffFlags (currentFlagsAt db aid fid uid) flags
  db.map (fun r => if rowKey r = (aid, fid, uid) then { r with flags := some newFlags } else r)

/-- `EmailRepository.add_flags`.  `folderId` models the result of resolving the
optional `folder_name` through `get_folder_id` (`none` when no folder name was
given or the folder is unknown); the cache loop runs only on remote success and
with a resolved folder. -/
def addFlags (db : Db) (aid : Nat) (uids : List Nat) (flags : List Str)
    (folderId : Option Nat) (remote : RemoteResult) : Db :=
  if remoteSuccess remote then
    match folderId with
    | some fid => uids.foldl (addFlagsStep aid fid flags) db
    | none => db
  else db

/-- `EmailRepository.remove_flags`, same structure as `add_flags`. -/
def removeFlags (db : Db) (aid : Nat) (uids : List Nat) (flags : List Str)
    (folderId : Option Nat) (remote : RemoteResult) : Db :=
  if remoteSuccess remote then
    match folderId with
    | some fid => uids.foldl (removeFlagsStep aid fid flags) db
    | none => db
  else db

/-!
## Thread nodes (`imap_client.py`)

The dictionaries built by `fetch_threads` / `_fetch_threads_fallback`.  The
underscore-prefixed threading keys (`_msg_id`, `_in_reply_to`, `_references`)
are modelled as `Option` fields: `none` means the key is absent from the dict
(they are popped before the fallback returns), `some` is the stored value.
-/

/-- The per-message dictionary of the threading code. -/
structure EmailMeta where
  uid : Nat
  subject : Str
  sender : Str
  date : Option Int
  flags : List Str
  msgId : Option Str
  inReplyTo : Option Str
  references : Option (List Str)
deriving Repr, DecidableEq

/-- Python `x.get("date") or 0`: the sort key used throughout the threading
code. -/
def dateKey (m : EmailMeta) : Int := m.date.getD 0

mutual
/-- A thread node: a message dictionary with a `children` list. -/
inductive Node where
  | mk (meta : EmailMeta) (children : Forest) : Node
/-- A list of thread nodes (the `children` value). -/
inductive Forest where
  | nil : Forest
  | cons (hd : Node) (tl : Forest) : Forest
end

/-- The message dictionary of a node. -/
def Node.meta : Node → EmailMeta
  | .mk m _ => m

/-- The `children` list of a node. -/
def Node.children : Node → Forest
  | .mk _ cs => cs

/-- Replace the `children` list of a node. -/
def Node.withChildren (n : Node) (cs : Forest) : Node := .mk n.meta cs

/-- Python `list.extend` on children lists. -/
def Forest.append : Forest → Forest → Forest
  | .nil, g => g
  | .cons n f, g => .cons n (f.append g)

/-- View a forest as a Lean list of nodes. -/
def Forest.toList : Forest → List Node
  | .nil => []
  | .cons n f => n :: f.toList

/-- Build a forest from a Lean list of nodes. -/
def Forest.ofList : List Node → Forest
  | [] => .nil
  | n :: ns => .cons n (Forest.ofList ns)

mutual
/-- All message dictionaries of a thread, root first, children in order
(pre-order traversal). -/
def Node.flatten : Node → List EmailMeta
  | .mk m cs => m :: cs.flattenF
/-- Pre-order traversal of a forest. -/
def Forest.flattenF : Forest → List EmailMeta
  | .nil => []
  | .cons n f => n.flatten ++ f.flattenF
end

/-- Pre-order traversal of a list of thread roots. -/
def flattenRoots (l : List Node) : List EmailMeta := (l.map Node.flatten).flatten

/-- Uids of a list of roots, in order. -/
def rootUids (l : List Node) : List Nat := l.map (fun n => n.meta.uid)

/-!
## Stable sorting

Python's `list.sort` is stable.  `sortAscBy` / `sortDescBy` are stable
insertion sorts: on equal keys the earlier element stays first.
-/

/-- Insert into an ascending-sorted list, after all elements of smaller-or-equal
key (stability). -/
def insertAsc (key : α → Int) (x : α) : List α → List α
  | [] => [x]
  | y :: ys => if key x < key y then x :: y :: ys else y :: insertAsc key x ys

/-- Stable sort, ascending by `key` (`list.sort(key=...)`). -/
def sortAscBy (key : α → Int) : List α → List α
  | [] => []
  | x :: xs => insertAsc key x (sortAscBy key xs)

/-- Insert into a descending-sorted list, after all elements of
greater-or-equal key. -/
def insertDesc (key : α → Int) (x : α) : List α → List α
  | [] => [x]
  | y :: ys => if key x > key y then x :: y :: ys else y :: insertDesc key x ys

/-- Stable sort, descending by `key` (`list.sort(key=..., reverse=True)`). -/
def sortDescBy (key : α → Int) : List α → List α
  | [] => []
  | x :: xs => insertDesc key x (sortDescBy key xs)

/-!
## Subject normalization (`IMAPClient._normalize_subject`)

Repeatedly strip a `^\s*(re|fwd|fw)\s*:\s*` prefix (case-insensitively), strip
whitespace, then lowercase.
-/

/-- Case-insensitive keyword match at the head of a string; the keyword is
given lowercase.  Returns the remainder on success. -/
def matchKw : Str → Str → Option Str
  | [], s => some s
  | _ :: _, [] => none
  | k :: ks, c :: cs => if c.toLower = k then matchKw ks cs else none

/-- After a matched keyword: skip whitespace, require a colon, skip whitespace
(the regex tail `\s*:\s*`).  Returns the remainder on success. -/
def afterColon (s : Str) : Option Str :=
  match s.dropWhile isPyWs with
  | ':' :: rest => some (rest.dropWhile isPyWs)
  | _ => none

/-- One application of the prefix regex `^\s*(re|fwd|fw)\s*:\s*` (alternatives
tried in the regex's order). -/
def stripOneReFwd (s : Str) : Option Str :=
  let s0 := s.dropWhile isPyWs
  match matchKw "re".toList s0 with
  | some r => afterColon r
  | none =>
    match matchKw "fwd".toList s0 with
    | some r => afterColon r
    | none =>
      match matchKw "fw".toList s0 with
      | some r => afterColon r
      | none => none

/-- The `while pattern.match(s)` loop of `_normalize_subject`; each successful
strip consumes at least the colon, so `length + 1` fuel runs the loop to
completion. -/
def normLoop : Nat → Str → Str
  | 0, s => s
  | fuel + 1, s =>
    match stripOneReFwd s with
    | some rest => normLoop fuel (pyStrip rest)
    | none => s

/-- `IMAPClient._normalize_subject`. -/
def normalizeSubject (subject : Str) : Str :=
  if subject.isEmpty then []
  else pyLower (normLoop (subject.length + 1) (pyStrip subject))

/-!
## Subject merge (`IMAPClient._merge_by_subject`)
-/

/-- Append a root to its subject group, preserving the dict's key insertion
order (`subject_groups.setdefault(norm_subj, []).append(root_obj)`). -/
def addToGroups (k : Str) (n : Node) : List (Str × List Node) → List (Str × List Node)
  | [] => [(k, [n])]
  | (k', g) :: rest =>
      if k' = k then (k', g ++ [n]) :: rest else (k', g) :: addToGroups k n rest

/-- One iteration of the first loop of `_merge_by_subject`: a root with a
normalized subject that is non-empty and longer than 3 characters goes to its
subject group, any other root passes through. -/
def splitStep (acc : List Node × List (Str × List Node)) (n : Node) :
    List Node × List (Str × List Node) :=
  let k := normalizeSubject n.meta.subject
  if !k.isEmpty && decide (3 < k.length) then (acc.1, addToGroups k n acc.2)
  else (acc.1 ++ [n], acc.2)

/-- The first loop of `_merge_by_subject`: split roots into the pass-through
list (short or empty normalized subject) and the subject groups, both in
encounter order. -/
def splitBySubject (roots : List Node) : List Node × List (Str × List Node) :=
  roots.foldl splitStep ([], [])

/-- Date sort key on nodes (`lambda x: x.get("date") or 0`). -/
def dateKeyN (n : Node) : Int := dateKey n.meta

/-- Empty a node's `children` list (`sibling["children"] = []`). -/
def emptyChildren (n : Node) : Node := n.withChildren .nil

/-- One iteration of the merge loop of `_merge_by_subject`:
`thread_root["children"].extend(sibling["children"]); sibling["children"] = [];
thread_root["children"].append(sibling)`. -/
def mergeStep (acc : Forest) (sib : Node) : Forest :=
  (acc.append sib.children).append (.cons (emptyChildren sib) .nil)

/-- The root of a merged group: the oldest member, its children extended by
every sibling's (moved) children and the emptied siblings themselves. -/
def mergedRoot (root : Node) (sibs : List Node) : Node :=
  root.withChildren (sibs.foldl mergeStep root.children)

/-- Merge one subject group: a singleton passes through; otherwise sort
ascending by date, keep the oldest as root, and move every other member's
children to the root before appending the (emptied) member itself. -/
def mergeGroup (g : List Node) : List Node :=
  match g with
  | [x] => [x]
  | g0 =>
    match sortAscBy dateKeyN g0 with
    | [] => []
    | root :: sibs => [mergedRoot root sibs]

/-- The final sort key of `_merge_by_subject`: newest date over the root and
its direct children. -/
def threadNewestDate (n : Node) : Int :=
  (n.children.toList.map dateKeyN).foldl max (dateKeyN n)

/-- `IMAPClient._merge_by_subject`. -/
def mergeBySubject (roots : List Node) : List Node :=
  sortDescBy threadNewestDate
    ((splitBySubject roots).1 ++
      ((splitBySubject roots).2.map (fun p => mergeGroup p.2)).flatten)

/-- The tail of `IMAPClient.fetch_threads`: the whole folder's thread forest is
built and merged first, and only then is the `[offset : offset + limit]` slice
taken. -/
def fetchThreadsPaginate (roots : List Node) (limit offset : Nat) : List Node :=
  ((mergeBySubject roots).drop offset).take limit

mutual
/-- Modelled from the spec: the sort key the specification describes for the
final ordering of `fetch_threads` — the maximum date over a root and ALL its
descendants (the source's `thread_newest_date` only looks at direct
children). -/
def Node.deepNewestDate : Node → Int
  | .mk m cs => Forest.deepNewestAux cs (m.date.getD 0)
/-- Maximum date over a forest, folded into an accumulator. -/
def Forest.deepNewestAux : Forest → Int → Int
  | .nil, acc => acc
  | .cons n f, acc => Forest.deepNewestAux f (max acc n.deepNewestDate)
end

/-- Modelled from the spec: ordering and pagination as the claim states them —
roots sorted descending by the deep maximum date, then sliced. -/
def fetchThreadsSpecOrder (roots : List Node) (limit offset : Nat) : List Node :=
  ((sortDescBy Node.deepNewestDate roots).drop offset).take limit

/-!
## Header-based threading fallback (`IMAPClient._fetch_threads_fallback`, tier 2)

In the fallback the underscore keys are always populated (`some`), so the plain
dict accesses of tier 2 read the stored value.
-/

/-- Value of `email_obj["_msg_id"]` while the key is present. -/
def fbMsgId (m : EmailMeta) : Str := m.msgId.getD []

/-- Value of `email_obj["_in_reply_to"]` while the key is present. -/
def fbInReplyTo (m : EmailMeta) : Str := m.inReplyTo.getD []

/-- Value of `email_obj["_references"]` while the key is present. -/
def fbRefs (m : EmailMeta) : List Str := m.references.getD []

/-- The `msgid_to_uid` index: built over all messages in iteration order, only
truthy message-ids are inserted, and a later message overwrites an earlier one
with the same id. -/
def lookupIndex (msgs : List EmailMeta) (mid : Str) : Option Nat :=
  ((msgs.filter (fun m => decide (fbMsgId m ≠ [] ∧ fbMsgId m = mid))).getLast?).map
    (fun m => m.uid)

/-- The reference walk of tier 2: scan `_references` from the end and take the
first reference that the index resolves to a uid other than the message's own
(`if ref in msgid_to_uid and msgid_to_uid[ref] != uid`). -/
def refWalk (msgs : List EmailMeta) (m : EmailMeta) : Str :=
  match (fbRefs m).reverse.find?
      (fun ref =>
        match lookupIndex msgs ref with
        | some u => decide (u ≠ m.uid)
        | none => false) with
  | some ref => ref
  | none => []

/-- The `parent_msgid` tier 2 settles on: the walk's result, else (when the
walk produced nothing and `_in_reply_to` is truthy) `_in_reply_to`. -/
def tier2ParentMsgId (msgs : List EmailMeta) (m : EmailMeta) : Str :=
  let p := refWalk msgs m
  if p.isEmpty && !(fbInReplyTo m).isEmpty then fbInReplyTo m else p

/-- Resolution of a `parent_msgid` to a parent uid, shared by the online
fallback and the offline reconstruction:
`parent_uid = msgid_to_uid.get(parent_msgid)` followed by
`if parent_uid and parent_uid in email_map and parent_uid != uid`. -/
def resolveParent (msgs : List EmailMeta) (pm : Str) (selfUid : Nat) : Option Nat :=
  match lookupIndex msgs pm with
  | some p =>
      if p ≠ 0 ∧ (msgs.any (fun m => m.uid = p)) ∧ p ≠ selfUid then some p else none
  | none => none

/-- The parent uid a message is attached to in tier 2, `none` when it becomes a
root candidate. -/
def tier2Parent (msgs : List EmailMeta) (m : EmailMeta) : Option Nat :=
  resolveParent msgs (tier2ParentMsgId msgs m) m.uid

/-- Modelled from the spec: the reference walk as the claim words it — the
first reference from the end that is present in the index, with no exclusion
of references that resolve to the message itself. -/
def refWalkSpec (msgs : List EmailMeta) (m : EmailMeta) : Str :=
  match (fbRefs m).reverse.find? (fun ref => (lookupIndex msgs ref).isSome) with
  | some ref => ref
  | none => []

/-- Modelled from the spec: `parent_msgid` under the claim's walk. -/
def tier2ParentMsgIdSpec (msgs : List EmailMeta) (m : EmailMeta) : Str :=
  let p := refWalkSpec msgs m
  if p.isEmpty && !(fbInReplyTo m).isEmpty then fbInReplyTo m else p

/-- Modelled from the spec: the parent uid under the claim's walk. -/
def tier2ParentSpec (msgs : List EmailMeta) (m : EmailMeta) : Option Nat :=
  resolveParent msgs (tier2ParentMsgIdSpec msgs m) m.uid

/-- Build the thread tree below one message from a parent assignment: the
children of a node are the messages (in map iteration order) assigned to it.
The parent assignment is functional, so any tree reachable from a root has
depth at most the number of messages; `fuel` is instantiated with that bound. -/
def buildNodeP (parent : List EmailMeta → EmailMeta → Option Nat)
    (msgs : List EmailMeta) : Nat → EmailMeta → Node
  | 0, m => .mk m .nil
  | fuel + 1, m =>
      .mk m (Forest.ofList
        ((msgs.filter (fun c => parent msgs c = some m.uid)).map
          (buildNodeP parent msgs fuel)))

/-- Root candidates of tier 2, in map iteration order. -/
def tier2Roots (msgs : List EmailMeta) : List EmailMeta :=
  msgs.filter (fun m => (tier2Parent msgs m).isNone)

mutual
/-- Popping the internal keys from one node's dict
(`obj.pop("_msg_id") / ("_in_reply_to") / ("_references")`), applied to the
whole returned structure since every email dict of the map is popped. -/
def Node.popInternal : Node → Node
  | .mk m cs => .mk { m with msgId := none, inReplyTo := none, references := none }
      cs.popInternalF
/-- Pop the internal keys below a forest. -/
def Forest.popInternalF : Forest → Forest
  | .nil => .nil
  | .cons n f => .cons n.popInternal f.popInternalF
end

/-- The non-Gmail path of `_fetch_threads_fallback`: tier-2 linking, tier-3
subject merge, pop of the internal keys, then the `[offset : offset + limit]`
slice. -/
def fallbackThreads (msgs : List EmailMeta) (limit offset : Nat) : List Node :=
  let roots := (tier2Roots msgs).map (buildNodeP tier2Parent msgs msgs.length)
  ((((mergeBySubject roots).map Node.popInternal).drop offset).take limit)

/-!
## Offline reconstruction (`EmailRepository._fetch_threads_from_db`)
-/

/-- Conversion of a cached row to the threading dict built by
`_fetch_threads_from_db` (`email_map[uid] = {...}`).  The underscore keys are
always present on these dicts; `_references` decodes the stored JSON with `[]`
for NULL or empty. -/
def rowToMeta (r : EmailRow) : EmailMeta :=
  { uid := r.uid
    subject := r.subject.getD []
    sender := r.sender.getD []
    date := r.dateReceived
    flags := r.flags.getD []
    msgId := some (r.messageId.getD [])
    inReplyTo := some (r.inReplyTo.getD [])
    references := some (r.referencesList.getD []) }

/-- The `parent_msgid` choice of `_fetch_threads_from_db`: the LAST reference
when `_references` is non-empty (no walk), else a truthy `_in_reply_to`, else
empty. -/
def dbParentMsgId (m : EmailMeta) : Str :=
  match (fbRefs m).reverse with
  | p :: _ => p
  | [] => if (fbInReplyTo m).isEmpty then [] else fbInReplyTo m

/-- The parent uid a cached message is attached to, `none` when it becomes a
root for the page. -/
def dbParent (msgs : List EmailMeta) (m : EmailMeta) : Option Nat :=
  resolveParent msgs (dbParentMsgId m) m.uid

/-- `EmailRepository._fetch_threads_from_db` on an already-fetched page of
rows: link within the page only; no subject merge and no re-sorting is
applied. -/
def fetchThreadsFromDb (rows : List EmailRow) : List Node :=
  let msgs := rows.map rowToMeta
  (msgs.filter (fun m => (dbParent msgs m).isNone)).map
    (buildNodeP dbParent msgs msgs.length)

/-- Modelled from the spec: offline reconstruction as claim C7 words it —
tier-2 References/In-Reply-To linking followed by the tier-3 subject merge,
over the page. -/
def fetchThreadsFromDbSpec (rows : List EmailRow) : List Node :=
  let msgs := rows.map rowToMeta
  mergeBySubject
    ((msgs.filter (fun m => (tier2Parent msgs m).isNone)).map
      (buildNodeP tier2Parent msgs msgs.length))

/-!
## SQL page query (`DBManager.get_emails`)

`ORDER BY date_received DESC, uid DESC LIMIT ? OFFSET ?`; SQLite sorts NULL
first ascending, hence last descending.
-/

/-- Comparison `a < b` on nullable dates with NULL smallest, as SQLite orders
the column. -/
def optDateLt : Option Int → Option Int → Bool
  | none, some _ => true
  | some a, some b => decide (a < b)
  | _, _ => false

/-- Does row `x` sort no later than row `y` under
`ORDER BY date_received DESC, uid DESC`? -/
def rowOrderGe (x y : EmailRow) : Bool :=
  optDateLt y.dateReceived x.dateReceived ||
    (y.dateReceived = x.dateReceived && decide (y.uid ≤ x.uid))

/-- Insertion into a list sorted by `rowOrderGe`. -/
def insertRowOrd (x : EmailRow) : List EmailRow → List EmailRow
  | [] => [x]
  | y :: ys => if rowOrderGe x y then x :: y :: ys else y :: insertRowOrd x ys

/-- Sort rows by `ORDER BY date_received DESC, uid DESC`. -/
def sortRows : List EmailRow → List EmailRow
  | [] => []
  | x :: xs => insertRowOrd x (sortRows xs)

/-- `DBManager.get_emails`: the page of the account's folder, ordered and
sliced in SQL. -/
def getEmails (db : Db) (aid fid limit offset : Nat) : List EmailRow :=
  (((sortRows (db.filter (fun r => r.accountId = aid ∧ r.folderId = fid))).drop
    offset).take limit)

/-!
## Write-through caching of fetched threads
(`EmailRepository._cache_threads` / `_save_email_node`)
-/

/-- The `upsert_email` arguments `_save_email_node` builds from a node dict:
plain keys with `.get` (always present on thread nodes), underscore keys with
`.get` (absent keys give `None`), references re-serialized with
`json.dumps(obj.get("_references", []))`, and no body. -/
def saveArgs (m : EmailMeta) : UpsertArgs :=
  { subject := some m.subject
    sender := some m.sender
    date := m.date
    flags := m.flags
    messageId := m.msgId
    inReplyTo := m.inReplyTo
    references := some (m.references.getD [])
    recipients := none }

mutual
/-- `EmailRepository._save_email_node`: upsert the node (no body), then
recurse over its children. -/
def saveNode (aid fid : Nat) : Db → Node → Db
  | db, .mk m cs => saveForest aid fid (upsertEmail db aid fid m.uid (saveArgs m) none none) cs
/-- Recursive save over a children list. -/
def saveForest (aid fid : Nat) : Db → Forest → Db
  | db, .nil => db
  | db, .cons n f => saveForest aid fid (saveNode aid fid db n) f
end

/-- `EmailRepository._cache_threads`: save every returned root. -/
def cacheThreads (aid fid : Nat) (db : Db) (threads : List Node) : Db :=
  threads.foldl (saveNode aid fid) db

/-- Outcome of the live `imap_client.fetch_threads` call inside
`EmailRepository.fetch_threads`: raised, or returned a list of roots. -/
inductive LiveThreads where
  | raised : LiveThreads
  | ok (threads : List Node) : LiveThreads
deriving Inhabited

/-- `EmailRepository.fetch_threads`: returns the live result and caches it only
when the live call succeeded AND returned a non-empty list (`if threads:`);
any other outcome — including a successful empty result — falls back to
`_fetch_threads_from_db` over the cached page. -/
def repoFetchThreads (live : LiveThreads) (db : Db) (aid fid limit offset : Nat) :
    List Node × Db :=
  match live with
  | .ok ts =>
      if ts.isEmpty then (fetchThreadsFromDb (getEmails db aid fid limit offset), db)
      else (ts, cacheThreads aid fid db ts)
  | .raised => (fetchThreadsFromDb (getEmails db aid fid limit offset), db)

/-!
## New-mail poller (`email_poller.py`)

The poller keeps `last_uids[email]` as a per-account watermark.  The server's
INBOX is modelled by the uid list a search returns.
-/

/-- Maximum of a uid list, `0` when empty (`max(uids)` guarded by
`if uids ... else 0`). -/
def maxUid (uids : List Nat) : Nat := uids.foldl max 0

/-- `EmailPoller._sync_initial_uids` for one account: record the maximum
existing INBOX uid as the watermark and emit no notification (the function
contains no notification call).  Result: `(watermark, notified uids)`. -/
def syncInitial (inboxUids : List Nat) : Nat × List Nat :=
  (maxUid inboxUids, [])

/-- Sort uids ascending (`sorted(real_new_uids)`). -/
def sortUidsAsc (uids : List Nat) : List Nat :=
  sortAscBy (fun u : Nat => (u : Int)) uids

/-- One poll cycle of `EmailPoller._poll_accounts` for one account.
`searchResult` is what `search(['UID', f"{last+1}:*"])` returned; the code
re-filters it to uids strictly above the watermark, advances the watermark to
their maximum, and processes (caches + notifies) only
`sorted(real_new_uids)[-3:]` — the three newest.  Result:
`(new watermark, uids notified, one notification each)`. -/
def pollStep (last : Nat) (searchResult : List Nat) : Nat × List Nat :=
  let realNew := searchResult.filter (fun u => last < u)
  if realNew.isEmpty then (last, [])
  else
    let sorted := sortUidsAsc realNew
    (maxUid realNew, sorted.drop (sorted.length - 3))

/-!
## Rule evaluation (`rule_manager.py`)
-/

/-- Condition fields understood by `RuleManager.apply_rules`; any other key
makes the rule unmatched. -/
inductive RuleField where
  | sender : RuleField
  | subject : RuleField
  | recipient : RuleField
  | unknown : RuleField
deriving Repr, DecidableEq

/-- One rule: its condition mapping (in dict order) and its action payload
(modelled opaquely as the decoded `action_json` pairs). -/
structure EmailRule where
  conds : List (RuleField × Str)
  actions : List (Str × Str)
deriving Repr, DecidableEq

/-- The message fields `apply_rules` reads (each defaulting to `""`). -/
structure MsgFields where
  sender : Str
  subject : Str
  toAddr : Str
  cc : Str
deriving Repr, DecidableEq

/-- Alternatives of one condition value:
`[v.strip() for v in value.split(',') if v.strip()]` after lowercasing. -/
def splitAlternatives (value : Str) : List Str :=
  ((splitCommas (pyLower value)).map pyStrip).filter (fun v => !v.isEmpty)

/-- The haystack a condition field is matched against: the lowercased message
field, with `recipient` matched against `f"{to}, {cc}"`. -/
def fieldHaystack (msg : MsgFields) : RuleField → Str
  | .sender => pyLower msg.sender
  | .subject => pyLower msg.subject
  | .recipient => pyLower msg.toAddr ++ ",".toList ++ " ".toList ++ pyLower msg.cc
  | .unknown => []

/-- Does one condition match (`any(tv in field for tv in target_values)`)?
An unknown field never matches. -/
def condMatches (msg : MsgFields) (c : RuleField × Str) : Bool :=
  match c.1 with
  | .unknown => false
  | f => (splitAlternatives c.2).any (fun tv => isSubstr tv (fieldHaystack msg f))

/-- AND over all conditions of a rule. -/
def ruleMatches (msg : MsgFields) (r : EmailRule) : Bool :=
  r.conds.all (condMatches msg)

/-- `RuleManager.apply_rules`: the actions of the first matching rule, `none`
when no rule matches. -/
def applyRules (rules : List EmailRule) (msg : MsgFields) : Option (List (Str × Str)) :=
  (rules.find? (ruleMatches msg)).map (fun r => r.actions)

/-!
## Concrete inputs used by the claim theorems
-/

/-- Meta with only uid, subject and date set (a node from the server-THREAD
path of `fetch_threads`, which never sets the underscore keys). -/
def mkM (uid : Nat) (subj : Str) (date : Option Int) : EmailMeta :=
  { uid := uid, subject := subj, sender := [], date := date, flags := []
    msgId := none, inReplyTo := none, references := none }

/-- A thread whose newest message (date 100) is a grandchild: root date 0,
child date 1, grandchild date 100. -/
def exC2Deep : Node :=
  .mk (mkM 1 [] (some 0))
    (.cons (.mk (mkM 2 [] (some 1)) (.cons (.mk (mkM 3 [] (some 100)) .nil) .nil)) .nil)

/-- A childless thread of date 50. -/
def exC2Flat : Node := .mk (mkM 4 [] (some 50)) .nil

/-- Two thread roots on which the deep and the direct-children sort keys order
differently. -/
def exC2Roots : List Node := [exC2Deep, exC2Flat]

/-- Fallback message: uid 1, message-id `m1`. -/
def cexM1 : EmailMeta :=
  { uid := 1, subject := "aa".toList, sender := [], date := some 10, flags := []
    msgId := some ("m1".toList), inReplyTo := some [], references := some [] }

/-- Fallback message: uid 2 whose references list holds only its OWN
message-id `m2`, with `In-Reply-To: m1`. -/
def cexM2 : EmailMeta :=
  { uid := 2, subject := "bb".toList, sender := [], date := some 20, flags := []
    msgId := some ("m2".toList), inReplyTo := some ("m1".toList)
    references := some ["m2".toList] }

/-- The two-message folder on which the claim's walk and the code's walk
disagree. -/
def cexC4Msgs : List EmailMeta := [cexM1, cexM2]

/-- The `{id=1, subj="Hello"}` message of the claim's example. -/
def helloM1 : EmailMeta :=
  { uid := 1, subject := "Hello".toList, sender := [], date := some 10, flags := []
    msgId := some ("m1".toList), inReplyTo := some [], references := some [] }

/-- The `{id=2, in_reply_to=1, subj="Re: Hello"}` message of the claim's
example. -/
def helloM2 : EmailMeta :=
  { uid := 2, subject := "Re: Hello".toList, sender := [], date := some 20, flags := []
    msgId := some ("m2".toList), inReplyTo := some ("m1".toList), references := some [] }

/-- The claim's two-message example folder. -/
def helloMsgs : List EmailMeta := [helloM1, helloM2]

/-- The meta of a node after the internal keys are popped. -/
def popMeta (m : EmailMeta) : EmailMeta :=
  { m with msgId := none, inReplyTo := none, references := none }

/-- Root of subject `Meeting`, date 10, no children, no header linkage. -/
def meetA : EmailMeta := mkM 1 "Meeting".toList (some 10)

/-- Root of subject `Re: Meeting`, date 20, no children, no header linkage. -/
def meetB : EmailMeta := mkM 2 "Re: Meeting".toList (some 20)

/-- The two unrelated roots of the subject-merge example, newest first. -/
def exC5Roots : List Node := [.mk meetB .nil, .mk meetA .nil]

/-- Cached row: uid 1, subject `Meeting`, no threading headers. -/
def rowMeet1 : EmailRow :=
  { accountId := 1, folderId := 1, uid := 1, subject := some ("Meeting".toList)
    sender := some [], dateReceived := some 10, flags := some []
    messageId := some ("m1".toList), inReplyTo := some [], referencesList := some []
    recipients := none, bodyText := none, bodyHtml := none }

/-- Cached row: uid 2, subject `Re: Meeting`, no threading headers. -/
def rowMeet2 : EmailRow :=
  { accountId := 1, folderId := 1, uid := 2, subject := some ("Re: Meeting".toList)
    sender := some [], dateReceived := some 20, flags := some []
    messageId := some ("m2".toList), inReplyTo := some [], referencesList := some []
    recipients := none, bodyText := none, bodyHtml := none }

/-- A cached page of two rows whose subjects would merge under tier 3. -/
def exC7Rows : List EmailRow := [rowMeet1, rowMeet2]

/-- Cached row whose references point at a message-id (`zz`) that is not in
the page. -/
def rowOrphan : EmailRow :=
  { accountId := 1, folderId := 1, uid := 5, subject := some ("Status".toList)
    sender := some [], dateReceived := some 30, flags := some []
    messageId := some ("m5".toList), inReplyTo := some []
    referencesList := some ["zz".toList]
    recipients := none, bodyText := none, bodyHtml := none }

/-- Fallback message for the caching claim: uid 2 replies to `m1` with a
references list, so all three threading headers are populated before the
fallback returns. -/
def cacheM2 : EmailMeta :=
  { uid := 2, subject := "bb".toList, sender := [], date := some 20, flags := []
    msgId := some ("m2".toList), inReplyTo := some ("m1".toList)
    references := some ["m1".toList] }

/-- The folder whose fallback threads get cached in the C8 theorem. -/
def cacheMsgs : List EmailMeta := [cexM1, cacheM2]

/-- The `{sender: "newsletter@"}` rule of the claim's example. -/
def newsRule : EmailRule :=
  { conds := [(.sender, "newsletter@".toList)]
    actions := [("move_to".toList, "News".toList)] }

/-- Message whose sender is `NewsLetter@Example.com`. -/
def msgNews : MsgFields :=
  { sender := "NewsLetter@Example.com".toList, subject := [], toAddr := [], cc := [] }

/-- Message whose sender is `boss@example.com`. -/
def msgBoss : MsgFields :=
  { sender := "boss@example.com".toList, subject := [], toAddr := [], cc := [] }

/-- A row whose body was cached by a prior with-body upsert. -/
def rowBody : EmailRow :=
  { accountId := 1, folderId := 1, uid := 7, subject := some ("old subj".toList)
    sender := some ("old@x".toList), dateReceived := some 100, flags := some []
    messageId := some ("mid7".toList), inReplyTo := some [], referencesList := some []
    recipients := none, bodyText := some ("the body".toList)
    bodyHtml := some ("<p>the body</p>".toList) }

/-- A list-fetch metadata payload carrying no body. -/
def argsListFetch : UpsertArgs :=
  { subject := some ("new subj".toList), sender := some ("new@x".toList)
    date := some 200, flags := ["\\Seen".toList], messageId := some ("mid7".toList)
    inReplyTo := some [], references := some [], recipients := none }

/-- A cached page containing `rowOrphan`, whose referenced parent `zz` is
outside the page. -/
def exC7OrphanRows : List EmailRow := [rowMeet1, rowOrphan]

/-!
# Theorems

General lemmas about the embedded operations, then one theorem (with witness
or counterexample) per claim.
-/

/-- Mapping a key-preserving function over the table commutes with key
lookup. -/
theorem dbLookup_map_keyPres (φ : EmailRow → EmailRow)
    (hφ : ∀ r, rowKey (φ r) = rowKey r) (db : Db) (aid fid uid : Nat) :
    dbLookup (db.map φ) aid fid uid = (dbLookup db aid fid uid).map φ := by
  induction db with
  | nil => rfl
  | cons hd tl ih =>
      simp only [dbLookup, List.map_cons, List.find?_cons] at *
      by_cases h : rowKey hd = (aid, fid, uid)
      · rw [hφ hd] at *
        simp [h]
      · have h1 : (decide (rowKey (φ hd) = (aid, fid, uid))) = false := by
          simp [hφ hd, h]
        have h2 : (decide (rowKey hd = (aid, fid, uid))) = false := by simp [h]
        rw [h1, h2]
        exact ih

/-- A successful lookup makes the conflict test of `upsert_email` true. -/
theorem conflict_of_lookup {db : Db} {aid fid uid : Nat} {r : EmailRow}
    (h : dbLookup db aid fid uid = some r) :
    db.any (fun x => rowKey x = (aid, fid, uid)) = true := by
  have hm : r ∈ db := List.mem_of_find?_eq_some h
  have hp := List.find?_some h
  simp only [List.any_eq_true]
  exact ⟨r, hm, hp⟩

/-- The row a successful lookup returns has the looked-up key. -/
theorem key_of_lookup {db : Db} {aid fid uid : Nat} {r : EmailRow}
    (h : dbLookup db aid fid uid = some r) : rowKey r = (aid, fid, uid) := by
  have hp := List.find?_some h
  simpa using hp

/-- The metadata update of `upsert_email` never changes a row's key. -/
theorem rowKey_metaUpdate (a : UpsertArgs) (r : EmailRow) :
    rowKey (metaUpdate a r) = rowKey r := rfl

/-- Everything `unionFlags` starts from stays in. -/
theorem mem_unionFlags_left {x : Str} {c : List Str} (f : List Str) (h : x ∈ c) :
    x ∈ unionFlags c f := by
  induction f generalizing c with
  | nil => exact h
  | cons a f ih =>
      simp only [unionFlags, List.foldl_cons] at *
      by_cases ha : a ∈ c
      · simp only [if_pos ha]
        exact ih h
      · simp only [if_neg ha]
        exact ih (by simp [h])

/-- Every added flag ends up in the union. -/
theorem mem_unionFlags_right {x : Str} {f : List Str} (c : List Str) (h : x ∈ f) :
    x ∈ unionFlags c f := by
  induction f generalizing c with
  | nil => cases h
  | cons a f ih =>
      simp only [unionFlags, List.foldl_cons]
      rcases List.mem_cons.mp h with heq | hx
      · rw [heq]
        by_cases ha : a ∈ c
        · rw [if_pos ha]
          exact mem_unionFlags_left f ha
        · rw [if_neg ha]
          exact mem_unionFlags_left f (by simp)
      · by_cases ha : a ∈ c
        · rw [if_pos ha]
          exact ih c hx
        · rw [if_neg ha]
          exact ih (c ++ [a]) hx

/-- Adding flags that are already present is a no-op. -/
theorem unionFlags_eq_of_subset {c f : List Str} (h : ∀ x ∈ f, x ∈ c) :
    unionFlags c f = c := by
  induction f generalizing c with
  | nil => rfl
  | cons a f ih =>
      simp only [unionFlags, List.foldl_cons]
      have ha : a ∈ c := h a (by simp)
      simp only [if_pos ha]
      exact ih (fun x hx => h x (by simp [hx]))

/-- The flag union is idempotent: re-adding the same flags changes nothing. -/
theorem unionFlags_idem (c f : List Str) :
    unionFlags (unionFlags c f) f = unionFlags c f :=
  unionFlags_eq_of_subset (fun _ hx => mem_unionFlags_right c hx)

/-- The flag difference is idempotent. -/
theorem diffFlags_idem (c f : List Str) :
    diffFlags (diffFlags c f) f = diffFlags c f := by
  simp [diffFlags, List.filter_filter]
/-- The per-key update map of a flag-loop step preserves every row's key. -/
theorem rowKey_flagMap (k : Nat × Nat × Nat) (nf : List Str) (x : EmailRow) :
    rowKey (if rowKey x = k then { x with flags := some nf } else x) = rowKey x := by
  by_cases hk : rowKey x = k
  · rw [if_pos hk]
    rfl
  · rw [if_neg hk]

/-- Keys over the same account and folder with different uids differ. -/
theorem rowKey_ne_of_uid_ne {r : EmailRow} {aid fid uid u : Nat}
    (hk : rowKey r = (aid, fid, uid)) (hne : uid ≠ u) : rowKey r ≠ (aid, fid, u) := by
  rw [hk]
  intro hh
  simp at hh
  exact hne hh

/-- The `add_flags` cache loop never touches a uid outside the processed
list. -/
theorem addFlags_foldl_frame (aid fid : Nat) (flags : List Str) (us : List Nat)
    (db : Db) (uid : Nat) (h : uid ∉ us) :
    dbLookup (us.foldl (addFlagsStep aid fid flags) db) aid fid uid =
      dbLookup db aid fid uid := by
  induction us generalizing db with
  | nil => rfl
  | cons u rest ih =>
      have hne : uid ≠ u := fun he => h (by simp [he])
      have hrest : uid ∉ rest := fun he => h (by simp [he])
      rw [List.foldl_cons, ih _ hrest]
      rw [addFlagsStep, dbLookup_map_keyPres _ (rowKey_flagMap (aid, fid, u) _)]
      cases hl : dbLookup db aid fid uid with
      | none => rfl
      | some r =>
          simp only [Option.map_some']
          rw [if_neg (rowKey_ne_of_uid_ne (key_of_lookup hl) hne)]

/-- The `add_flags` cache loop unions the stored flag list of every processed
uid with the added flags (re-processing a duplicate uid is a no-op thanks to
idempotence of the union). -/
theorem addFlags_foldl_mem (aid fid : Nat) (flags : List Str) (us : List Nat)
    (db : Db) (uid : Nat) (r : EmailRow) (h : uid ∈ us)
    (hr : dbLookup db aid fid uid = some r) :
    dbLookup (us.foldl (addFlagsStep aid fid flags) db) aid fid uid =
      some { r with flags := some (unionFlags (r.flags.getD []) flags) } := by
  induction us generalizing db r with
  | nil => cases h
  | cons u rest ih =>
      rw [List.foldl_cons]
      by_cases hu : u = uid
      · subst hu
        have hstep : dbLookup (addFlagsStep aid fid flags db u) aid fid u =
            some { r with flags := some (unionFlags (r.flags.getD []) flags) } := by
          rw [addFlagsStep, dbLookup_map_keyPres _ (rowKey_flagMap (aid, fid, u) _), hr]
          simp only [Option.map_some']
          rw [if_pos (key_of_lookup hr)]
          rw [currentFlagsAt, hr]
        by_cases hm : u ∈ rest
        · rw [ih _ _ hm hstep]
          simp [unionFlags_idem]
        · rw [addFlags_foldl_frame _ _ _ _ _ _ hm, hstep]
      · have hm : uid ∈ rest := by
          rcases List.mem_cons.mp h with he | hm
          · exact absurd he.symm hu
          · exact hm
        have hstep : dbLookup (addFlagsStep aid fid flags db u) aid fid uid = some r := by
          rw [addFlagsStep, dbLookup_map_keyPres _ (rowKey_flagMap (aid, fid, u) _), hr]
          simp only [Option.map_some']
          rw [if_neg (rowKey_ne_of_uid_ne (key_of_lookup hr) (fun he => hu he.symm))]
        exact ih _ _ hm hstep

/-- The `remove_flags` cache loop never touches a uid outside the processed
list. -/
theorem removeFlags_foldl_frame (aid fid : Nat) (flags : List Str) (us : List Nat)
    (db : Db) (uid : Nat) (h : uid ∉ us) :
    dbLookup (us.foldl (removeFlagsStep aid fid flags) db) aid fid uid =
      dbLookup db aid fid uid := by
  induction us generalizing db with
  | nil => rfl
  | cons u rest ih =>
      have hne : uid ≠ u := fun he => h (by simp [he])
      have hrest : uid ∉ rest := fun he => h (by simp [he])
      rw [List.foldl_cons, ih _ hrest]
      rw [removeFlagsStep, dbLookup_map_keyPres _ (rowKey_flagMap (aid, fid, u) _)]
      cases hl : dbLookup db aid fid uid with
      | none => rfl
      | some r =>
          simp only [Option.map_some']
          rw [if_neg (rowKey_ne_of_uid_ne (key_of_lookup hl) hne)]

/-- The `remove_flags` cache loop filters the removed flags out of the stored
list of every processed uid. -/
theorem removeFlags_foldl_mem (aid fid : Nat) (flags : List Str) (us : List Nat)
    (db : Db) (uid : Nat) (r : EmailRow) (h : uid ∈ us)
    (hr : dbLookup db aid fid uid = some r) :
    dbLookup (us.foldl (removeFlagsStep aid fid flags) db) aid fid uid =
      some { r with flags := some (diffFlags (r.flags.getD []) flags) } := by
  induction us generalizing db r with
  | nil => cases h
  | cons u rest ih =>
      rw [List.foldl_cons]
      by_cases hu : u = uid
      · subst hu
        have hstep : dbLookup (removeFlagsStep aid fid flags db u) aid fid u =
            some { r with flags := some (diffFlags (r.flags.getD []) flags) } := by
          rw [removeFlagsStep, dbLookup_map_keyPres _ (rowKey_flagMap (aid, fid, u) _), hr]
          simp only [Option.map_some']
          rw [if_pos (key_of_lookup hr)]
          rw [currentFlagsAt, hr]
        by_cases hm : u ∈ rest
        · rw [ih _ _ hm hstep]
          simp [diffFlags_idem]
        · rw [removeFlags_foldl_frame _ _ _ _ _ _ hm, hstep]
      · have hm : uid ∈ rest := by
          rcases List.mem_cons.mp h with he | hm
          · exact absurd he.symm hu
          · exact hm
        have hstep : dbLookup (removeFlagsStep aid fid flags db u) aid fid uid = some r := by
          rw [removeFlagsStep, dbLookup_map_keyPres _ (rowKey_flagMap (aid, fid, u) _), hr]
          simp only [Option.map_some']
          rw [if_neg (rowKey_ne_of_uid_ne (key_of_lookup hr) (fun he => hu he.symm))]
        exact ih _ _ hm hstep

/-- Mapping a function over a list relates pointwise to the original. -/
theorem forall2_map_self {α : Type} (R : α → α → Prop) (f : α → α)
    (h : ∀ a, R a (f a)) : ∀ l : List α, List.Forall₂ R l (l.map f)
  | [] => List.Forall₂.nil
  | a :: l => List.Forall₂.cons (h a) (forall2_map_self R f h l)

/-- C1.  A failed remote move (raised or returned `False`) leaves every cached
row unchanged; a successful one reassigns `folder_id` to the target for
exactly the rows of the account whose uid is listed, changing nothing else.
A failed remote flag call likewise leaves the cache untouched, and a
successful one updates the stored flag list of each listed uid to the union
(for `add_flags`) or the difference (for `remove_flags`). -/
theorem cache_mutations_require_remote_success :
    (∀ (db : Db) (aid : Nat) (uids : List Nat) (tgt : Nat),
      moveEmails db aid uids tgt .raised = db ∧ moveEmails db aid uids tgt (.ok false) = db)
    ∧ (∀ (db : Db) (aid : Nat) (uids : List Nat) (tgt : Nat),
      List.Forall₂
        (fun r r' =>
          (r.accountId = aid ∧ r.uid ∈ uids → r' = { r with folderId := tgt })
          ∧ (¬(r.accountId = aid ∧ r.uid ∈ uids) → r' = r))
        db (moveEmails db aid uids tgt (.ok true)))
    ∧ (∀ (db : Db) (aid : Nat) (uids : List Nat) (flags : List Str) (fid : Option Nat),
      addFlags db aid uids flags fid .raised = db
      ∧ addFlags db aid uids flags fid (.ok false) = db
      ∧ removeFlags db aid uids flags fid .raised = db
      ∧ removeFlags db aid uids flags fid (.ok false) = db)
    ∧ (∀ (db : Db) (aid fid : Nat) (uids : List Nat) (flags : List Str) (uid : Nat)
        (r : EmailRow), uid ∈ uids → dbLookup db aid fid uid = some r →
      dbLookup (addFlags db aid uids flags (some fid) (.ok true)) aid fid uid =
        some { r with flags := some (unionFlags (r.flags.getD []) flags) }
      ∧ dbLookup (removeFlags db aid uids flags (some fid) (.ok true)) aid fid uid =
        some { r with flags := some (diffFlags (r.flags.getD []) flags) }) := by
  refine ⟨fun db aid uids tgt => ⟨rfl, rfl⟩, ?_, fun db aid uids flags fid => ⟨rfl, rfl, rfl, rfl⟩, ?_⟩
  · intro db aid uids tgt
    show List.Forall₂ _ db
      (db.map (fun r => if r.accountId = aid ∧ r.uid ∈ uids then { r with folderId := tgt } else r))
    refine forall2_map_self _ _ (fun r => ?_) db
    by_cases hc : r.accountId = aid ∧ r.uid ∈ uids
    · exact ⟨fun _ => by rw [if_pos hc], fun hn => absurd hc hn⟩
    · exact ⟨fun hcc => absurd hcc hc, fun _ => by rw [if_neg hc]⟩
  · intro db aid fid uids flags uid r hm hr
    constructor
    · show dbLookup (uids.foldl (addFlagsStep aid fid flags) db) aid fid uid = _
      exact addFlags_foldl_mem aid fid flags uids db uid r hm hr
    · show dbLookup (uids.foldl (removeFlagsStep aid fid flags) db) aid fid uid = _
      exact removeFlags_foldl_mem aid fid flags uids db uid r hm hr

/-- Witness for C1 at a concrete cache: a raised move leaves the row, a
successful `add_flags`/`remove_flags` rewrites the stored flag list. -/
theorem cache_mutations_require_remote_success_witness :
    moveEmails [rowMeet1] 1 [1] 9 .raised = [rowMeet1]
    ∧ dbLookup (addFlags [rowMeet1] 1 [1] ["\\Seen".toList] (some 1) (.ok true)) 1 1 1 =
        some { rowMeet1 with flags := some (unionFlags (rowMeet1.flags.getD []) ["\\Seen".toList]) }
    ∧ dbLookup (removeFlags [rowMeet1] 1 [1] ["\\Seen".toList] (some 1) (.ok true)) 1 1 1 =
        some { rowMeet1 with flags := some (diffFlags (rowMeet1.flags.getD []) ["\\Seen".toList]) } := by
  refine ⟨(cache_mutations_require_remote_success.1 [rowMeet1] 1 [1] 9).1, ?_, ?_⟩
  · exact (cache_mutations_require_remote_success.2.2.2 [rowMeet1] 1 1 [1] ["\\Seen".toList] 1
      rowMeet1 (by decide) (by decide)).1
  · exact (cache_mutations_require_remote_success.2.2.2 [rowMeet1] 1 1 [1] ["\\Seen".toList] 1
      rowMeet1 (by decide) (by decide)).2

/-- When the key conflicts, the bodyless variant of `upsert_email` is exactly
the metadata-only rewrite of the table. -/
theorem upsertEmail_bodyless_eq (db : Db) (aid fid uid : Nat) (a : UpsertArgs)
    (hc : db.any (fun x => rowKey x = (aid, fid, uid)) = true) :
    upsertEmail db aid fid uid a none none =
      db.map (fun r => if rowKey r = (aid, fid, uid) then metaUpdate a r else r) := by
  unfold upsertEmail
  simp [hc]

/-- C3.  Upserting with `body_text=None` and `body_html=None` over an existing
row rewrites every metadata column from the arguments but leaves `body_text`
and `body_html` exactly as they were. -/
theorem upsert_bodyless_preserves_body (db : Db) (aid fid uid : Nat) (a : UpsertArgs)
    (r : EmailRow) (h : dbLookup db aid fid uid = some r) :
    dbLookup (upsertEmail db aid fid uid a none none) aid fid uid = some (metaUpdate a r)
    ∧ (metaUpdate a r).bodyText = r.bodyText
    ∧ (metaUpdate a r).bodyHtml = r.bodyHtml
    ∧ (metaUpdate a r).subject = a.subject
    ∧ (metaUpdate a r).sender = a.sender
    ∧ (metaUpdate a r).dateReceived = a.date
    ∧ (metaUpdate a r).flags = some a.flags
    ∧ (metaUpdate a r).messageId = a.messageId
    ∧ (metaUpdate a r).inReplyTo = a.inReplyTo
    ∧ (metaUpdate a r).referencesList = a.references := by
  refine ⟨?_, rfl, rfl, rfl, rfl, rfl, rfl, rfl, rfl, rfl⟩
  rw [upsertEmail_bodyless_eq db aid fid uid a (conflict_of_lookup h)]
  rw [dbLookup_map_keyPres _ (fun x => by
    by_cases hk : rowKey x = (aid, fid, uid)
    · rw [if_pos hk, rowKey_metaUpdate]
    · rw [if_neg hk]), h]
  simp only [Option.map_some']
  rw [if_pos (key_of_lookup h)]

/-- Witness for C3: a list-only upsert over a row with a cached body keeps the
body and rewrites the metadata. -/
theorem upsert_bodyless_preserves_body_witness :
    dbLookup (upsertEmail [rowBody] 1 1 7 argsListFetch none none) 1 1 7 =
        some (metaUpdate argsListFetch rowBody)
    ∧ (metaUpdate argsListFetch rowBody).bodyText = rowBody.bodyText
    ∧ (metaUpdate argsListFetch rowBody).bodyHtml = rowBody.bodyHtml
    ∧ (metaUpdate argsListFetch rowBody).subject = argsListFetch.subject
    ∧ (metaUpdate argsListFetch rowBody).sender = argsListFetch.sender
    ∧ (metaUpdate argsListFetch rowBody).dateReceived = argsListFetch.date
    ∧ (metaUpdate argsListFetch rowBody).flags = some argsListFetch.flags
    ∧ (metaUpdate argsListFetch rowBody).messageId = argsListFetch.messageId
    ∧ (metaUpdate argsListFetch rowBody).inReplyTo = argsListFetch.inReplyTo
    ∧ (metaUpdate argsListFetch rowBody).referencesList = argsListFetch.references :=
  upsert_bodyless_preserves_body [rowBody] 1 1 7 argsListFetch rowBody (by decide)

/-- Insertion keeps the list's contents (ascending sort). -/
theorem insertAsc_perm {α : Type} (key : α → Int) (x : α) :
    ∀ l : List α, List.Perm (insertAsc key x l) (x :: l)
  | [] => List.Perm.refl _
  | y :: ys => by
      rw [insertAsc]
      by_cases h : key x < key y
      · rw [if_pos h]
      · rw [if_neg h]
        exact List.Perm.trans (List.Perm.cons y (insertAsc_perm key x ys))
          (List.Perm.swap x y ys)

/-- The ascending insertion sort permutes its input. -/
theorem sortAscBy_perm {α : Type} (key : α → Int) :
    ∀ l : List α, List.Perm (sortAscBy key l) l
  | [] => List.Perm.refl _
  | x :: xs => by
      rw [sortAscBy]
      exact List.Perm.trans (insertAsc_perm key x (sortAscBy key xs))
        (List.Perm.cons x (sortAscBy_perm key xs))

/-- Insertion keeps the list's contents (descending sort). -/
theorem insertDesc_perm {α : Type} (key : α → Int) (x : α) :
    ∀ l : List α, List.Perm (insertDesc key x l) (x :: l)
  | [] => List.Perm.refl _
  | y :: ys => by
      rw [insertDesc]
      by_cases h : key x > key y
      · rw [if_pos h]
      · rw [if_neg h]
        exact List.Perm.trans (List.Perm.cons y (insertDesc_perm key x ys))
          (List.Perm.swap x y ys)

/-- The descending insertion sort permutes its input. -/
theorem sortDescBy_perm {α : Type} (key : α → Int) :
    ∀ l : List α, List.Perm (sortDescBy key l) l
  | [] => List.Perm.refl _
  | x :: xs => by
      rw [sortDescBy]
      exact List.Perm.trans (insertDesc_perm key x (sortDescBy key xs))
        (List.Perm.cons x (sortDescBy_perm key xs))

/-- Inserting into an ascending-ordered list keeps it ordered. -/
theorem insertAsc_pairwise {α : Type} (key : α → Int) (x : α) :
    ∀ {l : List α}, List.Pairwise (fun a b => key a ≤ key b) l →
      List.Pairwise (fun a b => key a ≤ key b) (insertAsc key x l)
  | [], _ => List.pairwise_singleton _ x
  | y :: ys, h => by
      rcases List.pairwise_cons.mp h with ⟨hy, hys⟩
      rw [insertAsc]
      by_cases hxy : key x < key y
      · rw [if_pos hxy]
        refine List.pairwise_cons.mpr ⟨?_, h⟩
        intro z hz
        rcases List.mem_cons.mp hz with hzy | hzys
        · rw [hzy]
          exact le_of_lt hxy
        · exact le_trans (le_of_lt hxy) (hy z hzys)
      · rw [if_neg hxy]
        refine List.pairwise_cons.mpr ⟨?_, insertAsc_pairwise key x hys⟩
        intro z hz
        have hz2 := (insertAsc_perm key x ys).mem_iff.mp hz
        rcases List.mem_cons.mp hz2 with hzx | hzys
        · rw [hzx]
          exact le_of_not_lt hxy
        · exact hy z hzys

/-- The ascending insertion sort yields an ordered list. -/
theorem sortAscBy_pairwise {α : Type} (key : α → Int) :
    ∀ l : List α, List.Pairwise (fun a b => key a ≤ key b) (sortAscBy key l)
  | [] => List.Pairwise.nil
  | x :: xs => by
      rw [sortAscBy]
      exact insertAsc_pairwise key x (sortAscBy_pairwise key xs)

/-- Inserting into a descending-ordered list keeps it ordered. -/
theorem insertDesc_pairwise {α : Type} (key : α → Int) (x : α) :
    ∀ {l : List α}, List.Pairwise (fun a b => key b ≤ key a) l →
      List.Pairwise (fun a b => key b ≤ key a) (insertDesc key x l)
  | [], _ => List.pairwise_singleton _ x
  | y :: ys, h => by
      rcases List.pairwise_cons.mp h with ⟨hy, hys⟩
      rw [insertDesc]
      by_cases hxy : key x > key y
      · rw [if_pos hxy]
        refine List.pairwise_cons.mpr ⟨?_, h⟩
        intro z hz
        rcases List.mem_cons.mp hz with hzy | hzys
        · rw [hzy]
          exact le_of_lt hxy
        · exact le_trans (hy z hzys) (le_of_lt hxy)
      · rw [if_neg hxy]
        refine List.pairwise_cons.mpr ⟨?_, insertDesc_pairwise key x hys⟩
        intro z hz
        have hz2 := (insertDesc_perm key x ys).mem_iff.mp hz
        rcases List.mem_cons.mp hz2 with hzx | hzys
        · rw [hzx]
          exact le_of_not_lt hxy
        · exact hy z hzys

/-- The descending insertion sort yields a descending-ordered list. -/
theorem sortDescBy_pairwise {α : Type} (key : α → Int) :
    ∀ l : List α, List.Pairwise (fun a b => key b ≤ key a) (sortDescBy key l)
  | [] => List.Pairwise.nil
  | x :: xs => by
      rw [sortDescBy]
      exact insertDesc_pairwise key x (sortDescBy_pairwise key xs)

/-- The fold computing `max(uids)` dominates its initial value. -/
theorem foldl_max_init_le (l : List Nat) : ∀ init : Nat, init ≤ l.foldl max init := by
  induction l with
  | nil => exact fun _ => le_refl _
  | cons a l ih =>
      intro init
      exact le_trans (le_max_left init a) (ih (max init a))

/-- Every element is bounded by the `max` fold. -/
theorem le_foldl_max (l : List Nat) : ∀ init : Nat, ∀ u ∈ l, u ≤ l.foldl max init := by
  induction l with
  | nil => intro _ u hu; cases hu
  | cons a l ih =>
      intro init u hu
      rcases List.mem_cons.mp hu with he | hm
      · rw [he, List.foldl_cons]
        exact le_trans (le_max_right init a) (foldl_max_init_le l (max init a))
      · exact ih (max init a) u hm

/-- The `max` fold returns its initial value or an element. -/
theorem foldl_max_mem (l : List Nat) : ∀ init : Nat,
    l.foldl max init = init ∨ l.foldl max init ∈ l := by
  induction l with
  | nil => exact fun _ => Or.inl rfl
  | cons a l ih =>
      intro init
      rcases ih (max init a) with h | h
      · rw [List.foldl_cons, h]
        rcases max_choice init a with h2 | h2
        · exact Or.inl h2
        · exact Or.inr (by rw [h2]; exact List.mem_cons_self a l)
      · exact Or.inr (List.mem_cons_of_mem a h)

/-- A non-empty uid list contains its own maximum. -/
theorem maxUid_mem {l : List Nat} (h : l ≠ []) : maxUid l ∈ l := by
  rcases foldl_max_mem l 0 with h0 | hm
  · cases l with
    | nil => exact absurd rfl h
    | cons a t =>
        have ha : a ≤ 0 := by
          have h1 := le_foldl_max (a :: t) 0 a (List.mem_cons_self a t)
          rw [h0] at h1
          exact h1
        unfold maxUid
        rw [h0, ← Nat.le_zero.mp ha]
        exact List.mem_cons_self a t
  · unfold maxUid
    exact hm

/-- The uid sort of the poll loop permutes its input. -/
theorem sortUidsAsc_perm (l : List Nat) : (sortUidsAsc l).Perm l :=
  sortAscBy_perm _ l

/-- The uid sort of the poll loop is ascending. -/
theorem sortUidsAsc_pairwise (l : List Nat) :
    List.Pairwise (fun a b : Nat => a ≤ b) (sortUidsAsc l) := by
  have h := sortAscBy_pairwise (fun v : Nat => (v : Int)) l
  exact h.imp (fun hab => by exact_mod_cast hab)

/-- C6.  Cold start: the initial sync records the maximum existing INBOX uid
as the watermark and notifies nothing.  Each later poll cycle: when no uid
exceeds the watermark, state and notifications are unchanged; otherwise the
watermark advances to the maximum uid found, at most 3 notifications fire, one
per processed uid, every processed uid is a genuinely new one, and the
processed uids are the newest of the new ones.  Concretely, 5 existing
messages give watermark 5 with no notification, and a later poll finding uid 6
fires exactly one notification for uid 6. -/
theorem poller_watermark_and_notifications :
    (∀ uids : List Nat, (syncInitial uids).2 = []
      ∧ (uids ≠ [] → (syncInitial uids).1 ∈ uids ∧ ∀ u ∈ uids, u ≤ (syncInitial uids).1))
    ∧ (∀ last : Nat, ∀ sr : List Nat,
      (sr.filter (fun u => last < u) = [] → pollStep last sr = (last, []))
      ∧ (sr.filter (fun u => last < u) ≠ [] →
          (pollStep last sr).1 ∈ sr.filter (fun u => last < u)
          ∧ (∀ u ∈ sr.filter (fun u => last < u), u ≤ (pollStep last sr).1)
          ∧ (pollStep last sr).2.length ≤ 3
          ∧ (∀ u ∈ (pollStep last sr).2, u ∈ sr.filter (fun u => last < u) ∧ last < u)
          ∧ (∀ u ∈ sr.filter (fun u => last < u), u ∉ (pollStep last sr).2 →
              ∀ w ∈ (pollStep last sr).2, u ≤ w)))
    ∧ syncInitial [1, 2, 3, 4, 5] = (5, [])
    ∧ pollStep 5 [6] = (6, [6]) := by
  refine ⟨?_, ?_, by decide, by decide⟩
  · intro uids
    refine ⟨rfl, fun h => ⟨maxUid_mem h, fun u hu => le_foldl_max uids 0 u hu⟩⟩
  · intro last sr
    constructor
    · intro h
      unfold pollStep
      rw [h]
      rfl
    · intro h
      have hne : (sr.filter (fun u => last < u)).isEmpty = false := by
        cases hrn : sr.filter (fun u => last < u) with
        | nil => exact absurd hrn h
        | cons a t => rfl
      have hpoll : pollStep last sr =
          (maxUid (sr.filter (fun u => last < u)),
            (sortUidsAsc (sr.filter (fun u => last < u))).drop
              ((sortUidsAsc (sr.filter (fun u => last < u))).length - 3)) := by
        simp only [pollStep, hne, Bool.false_eq_true, if_false]
      rw [hpoll]
      have hperm := sortUidsAsc_perm (sr.filter (fun u => last < u))
      refine ⟨maxUid_mem h, fun u hu => le_foldl_max _ 0 u hu, ?_, ?_, ?_⟩
      · simp only [List.length_drop]
        omega
      · intro u hu
        have hmem : u ∈ sortUidsAsc (sr.filter (fun u => last < u)) :=
          List.mem_of_mem_drop hu
        have hmem2 : u ∈ sr.filter (fun u => last < u) := hperm.mem_iff.mp hmem
        refine ⟨hmem2, ?_⟩
        have := List.mem_filter.mp hmem2
        simpa using this.2
      · intro u hu hnot w hw
        have hu2 : u ∈ sortUidsAsc (sr.filter (fun u => last < u)) := hperm.mem_iff.mpr hu
        have hpw := sortUidsAsc_pairwise (sr.filter (fun u => last < u))
        have hsplit := (List.take_append_drop
          ((sortUidsAsc (sr.filter (fun u => last < u))).length - 3)
          (sortUidsAsc (sr.filter (fun u => last < u)))).symm
        rw [hsplit] at hpw hu2
        have hcross := (List.pairwise_append.mp hpw).2.2
        rcases List.mem_append.mp hu2 with h1 | h1
        · exact hcross u h1 w hw
        · exact absurd h1 hnot

/-- Witness for C6: a poll over uids 4..8 with watermark 3 notifies only the
three newest and advances the watermark to 8; a poll finding nothing new
changes nothing. -/
theorem poller_watermark_and_notifications_witness :
    ([1, 2, 3].filter (fun u => 7 < u) = [] → pollStep 7 [1, 2, 3] = (7, []))
    ∧ pollStep 7 [1, 2, 3] = (7, [])
    ∧ (pollStep 3 [4, 5, 6, 7, 8]).2.length ≤ 3 := by
  have hp := (poller_watermark_and_notifications.2.1 7 [1, 2, 3]).1
  refine ⟨hp, hp (by decide), ?_⟩
  exact ((poller_watermark_and_notifications.2.1 3 [4, 5, 6, 7, 8]).2 (by decide)).2.2.1

/-- C10.  When the live fetch returns successfully but with an empty list,
`Repository.fetch_threads` ignores the empty live result and returns the
offline reconstruction of the cached page (same as when the live call
raises); with a stale cache this surfaces cached threads for a genuinely
empty remote folder. -/
theorem fetch_threads_empty_live_falls_back :
    (∀ (db : Db) (aid fid limit offset : Nat),
      repoFetchThreads (.ok []) db aid fid limit offset =
        (fetchThreadsFromDb (getEmails db aid fid limit offset), db)
      ∧ repoFetchThreads .raised db aid fid limit offset =
        (fetchThreadsFromDb (getEmails db aid fid limit offset), db))
    ∧ rootUids (repoFetchThreads (.ok []) exC7Rows 1 1 100 0).1 = [2, 1] :=
  ⟨fun _ _ _ _ _ => ⟨rfl, rfl⟩, by decide⟩

/-- C8 (code bug).  The fallback populates `_msg_id` / `_in_reply_to` /
`_references` on every message, but pops all three keys from every dict
before returning, so every node handed to `_save_email_node` carries `none`
for them and the cache receives `NULL` message-id and in-reply-to and an empty
serialized references list — the threading metadata the spec requires for
offline reconstruction is lost.  Shown on a concrete two-message thread whose
reply carried all three headers. -/
theorem save_email_node_loses_threading_metadata :
    cacheM2.msgId = some ("m2".toList)
    ∧ cacheM2.inReplyTo = some ("m1".toList)
    ∧ cacheM2.references = some ["m1".toList]
    ∧ (fallbackThreads cacheMsgs 100 0).map
        (fun n => (n.meta.msgId, n.meta.inReplyTo, n.meta.references)) = [(none, none, none)]
    ∧ (dbLookup (cacheThreads 1 1 [] (fallbackThreads cacheMsgs 100 0)) 1 1 1).map
        (fun r => (r.messageId, r.inReplyTo, r.referencesList)) = some (none, none, some [])
    ∧ (dbLookup (cacheThreads 1 1 [] (fallbackThreads cacheMsgs 100 0)) 1 1 2).map
        (fun r => (r.messageId, r.inReplyTo, r.referencesList)) = some (none, none, some []) := by
  refine ⟨rfl, rfl, rfl, by decide, by decide, by decide⟩

/-- Counterexample to C2 as stated: the final sort key of `fetch_threads` is
the newest date over a root and its DIRECT children only, not over all
descendants.  With a newest message sitting at grandchild depth (date 100
under a root keyed 1) the code orders the flat date-50 thread first, while the
claim's deep key would order the deep thread first. -/
theorem fetch_threads_deep_sort_cex :
    rootUids (fetchThreadsPaginate exC2Roots 10 0) = [4, 1]
    ∧ rootUids (fetchThreadsSpecOrder exC2Roots 10 0) = [1, 4]
    ∧ fetchThreadsPaginate exC2Roots 10 0 ≠ fetchThreadsSpecOrder exC2Roots 10 0 := by
  refine ⟨by decide, by decide, fun h => ?_⟩
  have h2 := congrArg rootUids h
  rw [show rootUids (fetchThreadsPaginate exC2Roots 10 0) = [4, 1] from by decide,
    show rootUids (fetchThreadsSpecOrder exC2Roots 10 0) = [1, 4] from by decide] at h2
  exact absurd h2 (by decide)

/-- C2 as amended.  `fetch_threads` builds and merges the whole folder's
forest first and only then slices: the returned page is exactly the
`[offset, offset+limit)` window of the merged list, that list is sorted
descending by the newest date over each root and its direct children, and
consecutive pages concatenate to the combined window — no root is skipped or
duplicated across page boundaries. -/
theorem fetch_threads_sorted_and_paginated :
    (∀ (roots : List Node) (limit offset : Nat),
      fetchThreadsPaginate roots limit offset = ((mergeBySubject roots).drop offset).take limit)
    ∧ (∀ roots : List Node,
      List.Pairwise (fun a b => threadNewestDate b ≤ threadNewestDate a) (mergeBySubject roots))
    ∧ (∀ (roots : List Node) (offset k k' : Nat),
      fetchThreadsPaginate roots k offset ++ fetchThreadsPaginate roots k' (offset + k) =
        ((mergeBySubject roots).drop offset).take (k + k')) := by
  refine ⟨fun _ _ _ => rfl, ?_, ?_⟩
  · intro roots
    exact sortDescBy_pairwise threadNewestDate _
  · intro roots offset k k'
    show ((mergeBySubject roots).drop offset).take k ++
        ((mergeBySubject roots).drop (offset + k)).take k' = _
    rw [List.take_add]
    rw [List.drop_drop]

/-- The message-id index only resolves to uids of fetched messages. -/
theorem lookupIndex_mem {msgs : List EmailMeta} {mid : Str} {p : Nat}
    (h : lookupIndex msgs mid = some p) : p ∈ msgs.map (fun x => x.uid) := by
  unfold lookupIndex at h
  cases hl : (msgs.filter (fun m => decide (fbMsgId m ≠ [] ∧ fbMsgId m = mid))).getLast? with
  | none => rw [hl] at h; cases h
  | some m =>
      rw [hl] at h
      have hm : m ∈ msgs := List.mem_of_mem_filter (List.mem_of_getLast?_eq_some hl)
      have : m.uid = p := by simpa using h
      exact this ▸ List.mem_map_of_mem (fun x => x.uid) hm

/-- Building a tree from a parent assignment keeps the root's own dict. -/
theorem buildNodeP_meta (parent : List EmailMeta → EmailMeta → Option Nat)
    (msgs : List EmailMeta) (fuel : Nat) (m : EmailMeta) :
    (buildNodeP parent msgs fuel m).meta = m := by
  cases fuel <;> rfl

/-- Counterexample to C4 as stated: the code's reference walk skips a
reference that resolves to the message itself and keeps walking (and can then
fall back to `In-Reply-To`), whereas the claim's walk stops at the first
reference present in the index.  For a message whose references list holds
only its own message-id and whose `In-Reply-To` names an existing message, the
claim makes it a root while the code attaches it as a child. -/
theorem fallback_reference_walk_cex :
    tier2Parent cexC4Msgs cexM2 = some 1
    ∧ tier2ParentSpec cexC4Msgs cexM2 = none
    ∧ (tier2Roots cexC4Msgs).map (fun m => m.uid) = [1]
    ∧ (cexC4Msgs.filter (fun m => (tier2ParentSpec cexC4Msgs m).isNone)).map
        (fun m => m.uid) = [1, 2] := by
  refine ⟨by decide, by decide, by decide, by decide⟩

/-- C4 as amended.  In the header fallback each message's parent is the first
reference (walking from the end) that the index resolves to a DIFFERENT
message's uid, else a truthy `In-Reply-To`; a message is attached only under
an existing, distinct, truthy parent uid, and otherwise becomes a root
candidate.  The claim's `Hello`/`Re: Hello` example produces one root (uid 1)
with one child (uid 2). -/
theorem fallback_tier2_linking :
    (∀ (msgs : List EmailMeta) (m : EmailMeta) (p : Nat),
      tier2Parent msgs m = some p →
        p ≠ m.uid ∧ p ∈ msgs.map (fun x => x.uid) ∧ p ≠ 0)
    ∧ (∀ (msgs : List EmailMeta) (m : EmailMeta),
      m ∈ msgs → tier2Parent msgs m = none → m ∈ tier2Roots msgs)
    ∧ fallbackThreads helloMsgs 100 0 =
        [.mk (popMeta helloM1) (.cons (.mk (popMeta helloM2) .nil) .nil)] := by
  refine ⟨?_, ?_, rfl⟩
  · intro msgs m p h
    unfold tier2Parent resolveParent at h
    cases hli : lookupIndex msgs (tier2ParentMsgId msgs m) with
    | none => rw [hli] at h; cases h
    | some q =>
        rw [hli] at h
        dsimp only at h
        split at h
        case isTrue hc =>
          have hqp : q = p := by simpa using h
          subst hqp
          exact ⟨hc.2.2, lookupIndex_mem hli, hc.1⟩
        case isFalse hc => cases h
  · intro msgs m hm h
    unfold tier2Roots
    refine List.mem_filter.mpr ⟨hm, ?_⟩
    rw [h]
    rfl

/-- Witness for C4's amended theorem at concrete inputs. -/
theorem fallback_tier2_linking_witness :
    ((1 : Nat) ≠ cexM2.uid ∧ (1 : Nat) ∈ cexC4Msgs.map (fun x => x.uid) ∧ (1 : Nat) ≠ 0)
    ∧ helloM1 ∈ tier2Roots helloMsgs := by
  refine ⟨fallback_tier2_linking.1 cexC4Msgs cexM2 1 (by decide), ?_⟩
  exact fallback_tier2_linking.2.1 helloMsgs helloM1 (by decide) (by decide)

/-- Counterexample to C7 as stated: the offline reconstruction applies NO
subject merge (and only a last-reference/in-reply-to link, not the tier-2
walk): two cached rows `Meeting` and `Re: Meeting` with no header linkage stay
two roots, while tiers 2–3 as claimed would merge them into one thread. -/
theorem db_reconstruction_no_merge_cex :
    rootUids (fetchThreadsFromDb exC7Rows) = [1, 2]
    ∧ rootUids (fetchThreadsFromDbSpec exC7Rows) = [1]
    ∧ fetchThreadsFromDb exC7Rows ≠ fetchThreadsFromDbSpec exC7Rows := by
  refine ⟨by decide, by decide, fun h => ?_⟩
  have h2 := congrArg rootUids h
  rw [show rootUids (fetchThreadsFromDb exC7Rows) = [1, 2] from by decide,
    show rootUids (fetchThreadsFromDbSpec exC7Rows) = [1] from by decide] at h2
  exact absurd h2 (by decide)

/-- C7 as amended.  The offline reconstruction links only within the fetched
page using the last reference (else in-reply-to) and applies no subject
merge; a cached message whose resolved parent message-id does not occur in
the page — in particular a parent outside the page window — becomes an orphan
root of that page, as does any message whose parent does not resolve. -/
theorem db_reconstruction_orphan_roots :
    (∀ (rows : List EmailRow) (r : EmailRow), r ∈ rows →
      lookupIndex (rows.map rowToMeta) (dbParentMsgId (rowToMeta r)) = none →
      r.uid ∈ rootUids (fetchThreadsFromDb rows))
    ∧ (∀ (rows : List EmailRow) (r : EmailRow), r ∈ rows →
      dbParent (rows.map rowToMeta) (rowToMeta r) = none →
      r.uid ∈ rootUids (fetchThreadsFromDb rows)) := by
  have main : ∀ (rows : List EmailRow) (r : EmailRow), r ∈ rows →
      dbParent (rows.map rowToMeta) (rowToMeta r) = none →
      r.uid ∈ rootUids (fetchThreadsFromDb rows) := by
    intro rows r hr h
    unfold fetchThreadsFromDb rootUids
    have hmem : rowToMeta r ∈ (rows.map rowToMeta).filter
        (fun m => (dbParent (rows.map rowToMeta) m).isNone) := by
      refine List.mem_filter.mpr ⟨List.mem_map_of_mem rowToMeta hr, ?_⟩
      rw [h]
      rfl
    refine List.mem_map.mpr ⟨buildNodeP dbParent (rows.map rowToMeta)
      (rows.map rowToMeta).length (rowToMeta r), List.mem_map_of_mem _ hmem, ?_⟩
    rw [buildNodeP_meta]
    rfl
  refine ⟨?_, main⟩
  intro rows r hr h
  refine main rows r hr ?_
  unfold dbParent resolveParent
  rw [h]

/-- Witness for C7's amended theorem: a row whose references point outside the
page becomes a root of that page. -/
theorem db_reconstruction_orphan_roots_witness :
    rowOrphan.uid ∈ rootUids (fetchThreadsFromDb exC7OrphanRows) :=
  db_reconstruction_orphan_roots.1 exC7OrphanRows rowOrphan (by decide) (by decide)

/-- Boolean prefix test agrees with the existence of a tail. -/
theorem startsWithB_iff (n : Str) : ∀ h : Str, startsWithB n h = true ↔ ∃ t : Str, n ++ t = h := by
  induction n with
  | nil =>
      intro h
      constructor
      · intro _
        exact ⟨h, rfl⟩
      · intro _
        rfl
  | cons a as ih =>
      intro h
      cases h with
      | nil =>
          constructor
          · intro hh
            simp [startsWithB] at hh
          · rintro ⟨t, ht⟩
            simp at ht
      | cons b bs =>
          rw [startsWithB]
          constructor
          · intro hh
            have h1 : a = b ∧ startsWithB as bs = true := by
              simpa [Bool.and_eq_true] using hh
            rcases (ih bs).mp h1.2 with ⟨t, ht⟩
            exact ⟨t, by rw [List.cons_append, h1.1, ht]⟩
          · rintro ⟨t, ht⟩
            rw [List.cons_append] at ht
            injection ht with h1 h2
            have h3 := (ih bs).mpr ⟨t, h2⟩
            simp [h1, h3]

/-- The Python containment test agrees with the declarative substring
relation. -/
theorem isSubstr_iff (n : Str) : ∀ h : Str, isSubstr n h = true ↔ SubstrSpec n h := by
  intro h
  induction h with
  | nil =>
      rw [isSubstr]
      constructor
      · intro hh
        have hn : n = [] := by simpa using hh
        exact ⟨[], [], by simp [hn]⟩
      · rintro ⟨pre, post, heq⟩
        simp only [List.append_eq_nil] at heq
        simp [heq.1.2]
  | cons c t ih =>
      rw [isSubstr, Bool.or_eq_true]
      constructor
      · intro hh
        rcases hh with h1 | h2
        · rcases (startsWithB_iff n (c :: t)).mp h1 with ⟨post, hp⟩
          exact ⟨[], post, by simpa using hp⟩
        · rcases ih.mp h2 with ⟨pre, post, hp⟩
          exact ⟨c :: pre, post, by rw [← hp]; rfl⟩
      · rintro ⟨pre, post, heq⟩
        cases pre with
        | nil =>
            exact Or.inl ((startsWithB_iff n (c :: t)).mpr ⟨post, by simpa using heq⟩)
        | cons d pre' =>
            rw [List.cons_append] at heq
            injection heq with h1 h2
            exact Or.inr (ih.mpr ⟨pre', post, h2⟩)

/-- One condition matches exactly when its field is known and some
comma-alternative is a substring of the lowered haystack. -/
theorem condMatches_iff (msg : MsgFields) (c : RuleField × Str) :
    condMatches msg c = true ↔
      c.1 ≠ RuleField.unknown ∧
        ∃ tv ∈ splitAlternatives c.2, SubstrSpec tv (fieldHaystack msg c.1) := by
  rcases c with ⟨f, v⟩
  cases f with
  | unknown => simp [condMatches]
  | sender => simp [condMatches, List.any_eq_true, isSubstr_iff]
  | subject => simp [condMatches, List.any_eq_true, isSubstr_iff]
  | recipient => simp [condMatches, List.any_eq_true, isSubstr_iff]

/-- C9.  A rule matches a message exactly when every condition's field is
known and, within each condition, some comma-separated alternative is a
case-insensitively matched substring of the corresponding message field
(`to` and `cc` concatenated for `recipient`).  `apply_rules` returns the
first matching rule's actions, and nothing when no rule matches.  The
`newsletter@` rule matches `NewsLetter@Example.com` and not
`boss@example.com`. -/
theorem apply_rules_semantics :
    (∀ (msg : MsgFields) (r : EmailRule),
      ruleMatches msg r = true ↔
        ∀ c ∈ r.conds, c.1 ≠ RuleField.unknown ∧
          ∃ tv ∈ splitAlternatives c.2, SubstrSpec tv (fieldHaystack msg c.1))
    ∧ (∀ (rules : List EmailRule) (msg : MsgFields) (acts : List (Str × Str)),
      applyRules rules msg = some acts →
        ∃ r ∈ rules, ruleMatches msg r = true ∧ acts = r.actions)
    ∧ (∀ (rules : List EmailRule) (msg : MsgFields),
      applyRules rules msg = none → ∀ r ∈ rules, ruleMatches msg r = false)
    ∧ applyRules [newsRule] msgNews = some newsRule.actions
    ∧ applyRules [newsRule] msgBoss = none := by
  refine ⟨?_, ?_, ?_, by decide, by decide⟩
  · intro msg r
    rw [ruleMatches, List.all_eq_true]
    constructor
    · intro hh c hc
      exact (condMatches_iff msg c).mp (hh c hc)
    · intro hh c hc
      exact (condMatches_iff msg c).mpr (hh c hc)
  · intro rules msg acts h
    unfold applyRules at h
    cases hf : rules.find? (ruleMatches msg) with
    | none => rw [hf] at h; cases h
    | some r =>
        rw [hf] at h
        refine ⟨r, List.mem_of_find?_eq_some hf, List.find?_some hf, ?_⟩
        simpa using h.symm
  · intro rules msg h r hr
    unfold applyRules at h
    have hf : rules.find? (ruleMatches msg) = none := by
      cases hf : rules.find? (ruleMatches msg) with
      | none => rfl
      | some x => rw [hf] at h; cases h
    have := List.find?_eq_none.mp hf r hr
    simpa using this

/-- Witness for C9: the semantic characterization applied to the example rule
and messages. -/
theorem apply_rules_semantics_witness :
    (∃ r ∈ [newsRule], ruleMatches msgNews r = true ∧ newsRule.actions = r.actions)
    ∧ (∀ r ∈ [newsRule], ruleMatches msgBoss r = false) := by
  refine ⟨apply_rules_semantics.2.1 [newsRule] msgNews newsRule.actions (by decide), ?_⟩
  exact apply_rules_semantics.2.2.1 [newsRule] msgBoss (by decide)

/-- Pre-order traversal of appended root lists. -/
theorem flattenRoots_append (l1 l2 : List Node) :
    flattenRoots (l1 ++ l2) = flattenRoots l1 ++ flattenRoots l2 := by
  unfold flattenRoots
  rw [List.map_append, List.flatten_append]

/-- Pre-order traversal of a cons of roots. -/
theorem flattenRoots_cons (n : Node) (l : List Node) :
    flattenRoots (n :: l) = n.flatten ++ flattenRoots l := rfl

/-- Permuting roots permutes their traversal. -/
theorem flattenRoots_perm {l1 l2 : List Node} (h : l1.Perm l2) :
    (flattenRoots l1).Perm (flattenRoots l2) :=
  List.Perm.flatten (h.map Node.flatten)

/-- Traversal of appended forests. -/
theorem flattenF_append : ∀ a b : Forest,
    (a.append b).flattenF = a.flattenF ++ b.flattenF
  | .nil, _ => rfl
  | .cons n f, b => by
      rw [Forest.append, Forest.flattenF, Forest.flattenF, flattenF_append f b,
        List.append_assoc]

/-- A node's traversal is its dict followed by its children's traversal. -/
theorem node_flatten_eq : ∀ n : Node, n.flatten = n.meta :: n.children.flattenF
  | .mk _ _ => rfl

/-- Emptying a node's children leaves just its dict in the traversal. -/
theorem emptyChildren_flatten : ∀ n : Node, (emptyChildren n).flatten = [n.meta]
  | .mk _ _ => rfl

/-- The combined traversal of all groups. -/
def groupsFlatten (gs : List (Str × List Node)) : List EmailMeta :=
  (gs.map (fun g => flattenRoots g.2)).flatten

/-- Appending a root to its group only adds that root's traversal. -/
theorem groupsFlatten_addToGroups (k : Str) (n : Node) :
    ∀ gs : List (Str × List Node),
      (groupsFlatten (addToGroups k n gs)).Perm (groupsFlatten gs ++ n.flatten)
  | [] => by
      simp [addToGroups, groupsFlatten, flattenRoots]
  | (k', g) :: rest => by
      rw [addToGroups]
      by_cases hk : k' = k
      · rw [if_pos hk]
        show (flattenRoots (g ++ [n]) ++ groupsFlatten rest).Perm
          ((flattenRoots g ++ groupsFlatten rest) ++ n.flatten)
        rw [flattenRoots_append, List.append_assoc, List.append_assoc]
        refine List.Perm.append_left (flattenRoots g) ?_
        rw [show flattenRoots [n] = n.flatten by simp [flattenRoots]]
        exact List.Perm.trans (List.Perm.append_right _ (List.Perm.refl _))
          List.perm_append_comm
      · rw [if_neg hk]
        show (flattenRoots g ++ groupsFlatten (addToGroups k n rest)).Perm
          ((flattenRoots g ++ groupsFlatten rest) ++ n.flatten)
        rw [List.append_assoc]
        exact List.Perm.append_left (flattenRoots g) (groupsFlatten_addToGroups k n rest)

/-- The total content of a split state: pass-through roots plus all groups. -/
def splitMeasure (p : List Node × List (Str × List Node)) : List EmailMeta :=
  flattenRoots p.1 ++ groupsFlatten p.2

/-- One split step only adds the processed root's traversal. -/
theorem splitMeasure_step (acc : List Node × List (Str × List Node)) (n : Node) :
    (splitMeasure (splitStep acc n)).Perm (splitMeasure acc ++ n.flatten) := by
  unfold splitStep
  by_cases hc : (!(normalizeSubject n.meta.subject).isEmpty &&
      decide (3 < (normalizeSubject n.meta.subject).length)) = true
  · simp only [hc, if_true]
    show (flattenRoots acc.1 ++ groupsFlatten (addToGroups _ n acc.2)).Perm
      ((flattenRoots acc.1 ++ groupsFlatten acc.2) ++ n.flatten)
    rw [List.append_assoc]
    exact List.Perm.append_left _ (groupsFlatten_addToGroups _ n acc.2)
  · simp only [hc, if_false]
    show (flattenRoots (acc.1 ++ [n]) ++ groupsFlatten acc.2).Perm
      ((flattenRoots acc.1 ++ groupsFlatten acc.2) ++ n.flatten)
    rw [flattenRoots_append, List.append_assoc, List.append_assoc]
    refine List.Perm.append_left (flattenRoots acc.1) ?_
    rw [show flattenRoots [n] = n.flatten by simp [flattenRoots]]
    exact List.Perm.trans (List.Perm.append_right _ (List.Perm.refl _))
      List.perm_append_comm

/-- Folding the split over the roots accumulates exactly their traversal. -/
theorem splitMeasure_foldl :
    ∀ (roots : List Node) (acc : List Node × List (Str × List Node)),
      (splitMeasure (roots.foldl splitStep acc)).Perm (splitMeasure acc ++ flattenRoots roots)
  | [], acc => by
      simp [flattenRoots]
  | n :: rs, acc => by
      rw [List.foldl_cons]
      refine List.Perm.trans (splitMeasure_foldl rs (splitStep acc n)) ?_
      refine List.Perm.trans (List.Perm.append_right _ (splitMeasure_step acc n)) ?_
      rw [flattenRoots_cons, List.append_assoc]

/-- Folding the merge loop appends each sibling's content (children moved,
sibling itself re-parented, nothing duplicated). -/
theorem mergeFold_flattenF :
    ∀ (sibs : List Node) (acc : Forest),
      ((sibs.foldl mergeStep acc).flattenF).Perm (acc.flattenF ++ flattenRoots sibs)
  | [], acc => by
      simp [flattenRoots]
  | sib :: rest, acc => by
      rw [List.foldl_cons]
      refine List.Perm.trans (mergeFold_flattenF rest (mergeStep acc sib)) ?_
      have hstep : (mergeStep acc sib).flattenF =
          (acc.flattenF ++ sib.children.flattenF) ++ [sib.meta] := by
        unfold mergeStep
        rw [flattenF_append, flattenF_append]
        rw [show (Forest.cons (emptyChildren sib) .nil).flattenF = [sib.meta] by
          rw [Forest.flattenF, emptyChildren_flatten]
          rfl]
      rw [hstep, flattenRoots_cons]
      rw [List.append_assoc (acc.flattenF ++ sib.children.flattenF) [sib.meta] (flattenRoots rest)]
      rw [List.append_assoc acc.flattenF sib.children.flattenF ([sib.meta] ++ flattenRoots rest)]
      refine List.Perm.append_left acc.flattenF ?_
      rw [node_flatten_eq sib]
      show (sib.children.flattenF ++ (sib.meta :: flattenRoots rest)).Perm
        ((sib.meta :: sib.children.flattenF) ++ flattenRoots rest)
      rw [List.cons_append]
      exact List.perm_middle

/-- Merging one group preserves its total content. -/
theorem mergeGroup_flatten_perm (g : List Node) :
    (flattenRoots (mergeGroup g)).Perm (flattenRoots g) := by
  cases g with
  | nil => exact List.Perm.refl _
  | cons a g' =>
    cases g' with
    | nil => exact List.Perm.refl _
    | cons b g'' =>
        have hg : mergeGroup (a :: b :: g'') =
            (match sortAscBy dateKeyN (a :: b :: g'') with
              | [] => []
              | root :: sibs => [mergedRoot root sibs]) := rfl
        cases hs : sortAscBy dateKeyN (a :: b :: g'') with
        | nil =>
            exfalso
            have hperm := sortAscBy_perm dateKeyN (a :: b :: g'')
            rw [hs] at hperm
            have := hperm.length_eq
            simp at this
        | cons root sibs =>
            have hmg : mergeGroup (a :: b :: g'') = [mergedRoot root sibs] := by
              rw [hg, hs]
            rw [hmg]
            have hperm := sortAscBy_perm dateKeyN (a :: b :: g'')
            rw [hs] at hperm
            refine List.Perm.trans ?_ (flattenRoots_perm hperm)
            rw [flattenRoots_cons]
            show (flattenRoots [mergedRoot root sibs]).Perm _
            rw [show flattenRoots [mergedRoot root sibs] = (mergedRoot root sibs).flatten by
              simp [flattenRoots]]
            rw [node_flatten_eq (mergedRoot root sibs)]
            have hmeta : (mergedRoot root sibs).meta = root.meta := rfl
        
            have hch : (mergedRoot root sibs).children = sibs.foldl mergeStep root.children := rfl
            rw [hmeta, hch]
            refine List.Perm.trans (List.Perm.cons root.meta (mergeFold_flattenF sibs root.children)) ?_
            rw [flattenRoots_cons, node_flatten_eq root, List.cons_append]

/-- Traversal of a flattened list of root lists. -/
theorem flattenRoots_flatten : ∀ xss : List (List Node),
    flattenRoots xss.flatten = (xss.map flattenRoots).flatten
  | [] => rfl
  | xs :: rest => by
      rw [List.flatten_cons, flattenRoots_append, List.map_cons, List.flatten_cons,
        flattenRoots_flatten rest]

/-- Pointwise permutations between two mapped lists. -/
theorem forall2_map_map {α β : Type} (f g : α → List β)
    (h : ∀ a, (f a).Perm (g a)) :
    ∀ l : List α, List.Forall₂ (fun x y => x.Perm y) (l.map f) (l.map g)
  | [] => List.Forall₂.nil
  | a :: l => List.Forall₂.cons (h a) (forall2_map_map f g h l)

/-- Merging all groups preserves their combined content. -/
theorem mergedGroups_perm (gs : List (Str × List Node)) :
    (flattenRoots ((gs.map (fun p => mergeGroup p.2)).flatten)).Perm (groupsFlatten gs) := by
  rw [flattenRoots_flatten, List.map_map]
  simp only [Function.comp_def]
  exact List.Perm.flatten_congr
    (forall2_map_map (fun p => flattenRoots (mergeGroup p.2)) (fun p => flattenRoots p.2)
      (fun p => mergeGroup_flatten_perm p.2) gs)

/-- The subject merge moves nodes but neither duplicates nor drops any: the
pre-order traversal of its output is a permutation of that of its input. -/
theorem mergeBySubject_flatten_perm (roots : List Node) :
    (flattenRoots (mergeBySubject roots)).Perm (flattenRoots roots) := by
  unfold mergeBySubject
  refine List.Perm.trans (flattenRoots_perm (sortDescBy_perm threadNewestDate _)) ?_
  rw [flattenRoots_append]
  refine List.Perm.trans (List.Perm.append_left _ (mergedGroups_perm (splitBySubject roots).2)) ?_
  refine List.Perm.trans (splitMeasure_foldl roots ([], [])) ?_
  exact List.Perm.refl _

/-- C5.  The subject-merge post-pass: `Meeting` and `Re: Meeting` normalize
identically, the two unrelated roots merge into a single thread rooted at the
earlier-dated one with the other as its direct child; roots with short
normalized subjects pass through unmerged; and the merge moves children
without duplication or loss (the flattened content of the output permutes the
input's). -/
theorem merge_by_subject_matches_spec :
    mergeBySubject exC5Roots = [Node.mk meetA (.cons (.mk meetB .nil) .nil)]
    ∧ normalizeSubject ("Re: Meeting".toList) = "meeting".toList
    ∧ normalizeSubject ("re: FWD:  fw: Meeting".toList) = "meeting".toList
    ∧ normalizeSubject ("Meeting".toList) = "meeting".toList
    ∧ rootUids (mergeBySubject
        [Node.mk (mkM 1 ("Hi".toList) (some 10)) .nil,
         Node.mk (mkM 2 ("Re: Hi".toList) (some 20)) .nil]) = [2, 1]
    ∧ (∀ roots : List Node, (flattenRoots (mergeBySubject roots)).Perm (flattenRoots roots)) := by
  refine ⟨rfl, by decide, by decide, by decide, by decide, mergeBySubject_flatten_perm⟩
